import Mathlib

/-!
Verification of the dot_conf_parser configuration parser.

The development shallowly embeds the Rust sources:
 - `src/parser/core.rs`  : line tokenizer, key path resolver, tree builder;
 - `src/parser/schema.rs`: schema compiler;
 - `src/parser/conf.rs`  : schema reconciliation (conf builder);
 - `src/error.rs`        : error type and the strum error conversion;
 - `src/lib.rs`          : the standalone variant parser.

Strings are embedded as lists of characters (`Str`), Rust's ordered
`BTreeMap` as key-sorted association lists, and each Rust function as an
executable Lean definition of the same name.  Fallible Rust functions
returning `PRslt<T>` become `Except ParseError T`.  The two `todo!()`
panics in `conf.rs` are modelled by the extra error constructor
`ParseError.Todo`.
-/

namespace DotConf

abbrev Str := List Char

/-- Models Rust `char::is_whitespace`: the Unicode `White_Space` property,
by explicit code-point list. -/
def isWs (c : Char) : Bool :=
  c.toNat ∈ [9, 10, 11, 12, 13, 32, 133, 160, 5760,
    8192, 8193, 8194, 8195, 8196, 8197, 8198, 8199, 8200, 8201, 8202,
    8232, 8233, 8239, 8287, 12288]

/-- Models Rust `str::trim_start`. -/
def trimLeft (s : Str) : Str := s.dropWhile isWs

/-- Models Rust `str::trim_end`. -/
def trimRight (s : Str) : Str := (s.reverse.dropWhile isWs).reverse

/-- Models Rust `str::trim` (both ends). -/
def trim (s : Str) : Str := trimRight (trimLeft s)

/-- Lexicographic (code-point) order on strings; models the `Ord` used by
Rust's `BTreeMap<String, _>` for key ordering. -/
def strLt : Str → Str → Bool
  | [], [] => false
  | [], _ :: _ => true
  | _ :: _, [] => false
  | a :: as, b :: bs =>
    if a.toNat < b.toNat then true
    else if b.toNat < a.toNat then false
    else strLt as bs

/-- Lookup in an association list; models `BTreeMap::get`. -/
def lookupA {α : Type} : List (Str × α) → Str → Option α
  | [], _ => none
  | (k', v) :: rest, k => if k = k' then some v else lookupA rest k

/-- Order-preserving insert/replace; models `BTreeMap::insert` (and the
`Entry` API) on the sorted association-list representation. -/
def insertA {α : Type} (k : Str) (v : α) : List (Str × α) → List (Str × α)
  | [] => [(k, v)]
  | (k', v') :: rest =>
    if k = k' then (k, v) :: rest
    else if strLt k k' then (k, v) :: (k', v') :: rest
    else (k', v') :: insertA k v rest

/-- `TreeValue<T>` from `src/parser/core.rs`: a scalar leaf or an ordered
map from key segment to subtree. -/
inductive TreeValue (T : Type) where
  | Scalar : T → TreeValue T
  | Map : List (Str × TreeValue T) → TreeValue T

/-- Payload of the untyped tree: `(raw string, originating line number)`. -/
abbrev MirPayload := Str × Nat

/-- A node of the untyped tree ("MIR"). -/
abbrev MirTree := TreeValue MirPayload

/-- `StructuredInput` from `src/parser/core.rs`: the root map of the
untyped tree. -/
abbrev StructuredInput := List (Str × MirTree)

/-- Scalar type kinds: `SingleValueDiscriminants` from `src/parser/conf.rs`
(derived by strum from `SingleValue`). -/
inductive SingleValueDiscriminants where
  | String
  | Bool
  | Integer
deriving DecidableEq

abbrev Flag := Bool

/-- Typed scalar values: `SingleValue` from `src/parser/conf.rs`.  Rust's
`i32` payload is embedded as `Int` (range checked at parse time). -/
inductive SingleValue where
  | String : Str → SingleValue
  | Bool : Flag → SingleValue
  | Integer : Int → SingleValue
deriving DecidableEq

/-- `Value<T>` from `src/parser/conf.rs`: one scalar type or a fixed-arity
collection of scalar types. -/
inductive Value (T : Type) where
  | Single : T → Value T
  | Collection : List T → Value T

/-- `SchemaValue` from `src/parser/schema.rs`. -/
abbrev SchemaValue := TreeValue (Value SingleValueDiscriminants)

/-- The inner map of `SchemaMap` from `src/parser/schema.rs`. -/
abbrev SchemaMapL := List (Str × SchemaValue)

/-- `ConfValue` from `src/parser/conf.rs`. -/
abbrev ConfValue := TreeValue (Value SingleValue)

/-- `ParseError` from `src/error.rs` (the `Io` wrapper is out of scope;
the extra constructor `Todo` marks the `todo!()` panic paths reachable in
`src/parser/conf.rs`). -/
inductive ParseError where
  | MissingDelimiter (line : Nat)
  | EmptyKey (line : Nat)
  | EmptyValue (line : Nat)
  | InvalidKeySegment (segment : Str) (line : Nat)
  | ConflictingTypes (key : Str) (line : Nat)
  | InvalidValue (key : Str) (value : Str) (ty : SingleValueDiscriminants)
      (line : Nat)
  | UnknownKey (key : Str) (lines : List Nat)
  | Todo
deriving DecidableEq

/-- Index of the first occurrence of `needle` in `hay`; models Rust
`str::find` on a substring pattern (the returned index counts characters,
faithfully identifying the same split point as Rust's byte index). -/
def findSub (needle : Str) : Str → Option Nat
  | [] => if needle.isPrefixOf [] then some 0 else none
  | c :: rest =>
    if needle.isPrefixOf (c :: rest) then some 0
    else (findSub needle rest).map (· + 1)

/-- `Valuable::extract_key_value` from `src/parser/core.rs`: split a line
at the first occurrence of the separator, trimming only the key part. -/
def extract_key_value (sep : Str) (s : Str) (lineNo : Nat) :
    Except ParseError (Str × Str) :=
  match findSub sep s with
  | some eqIndex => .ok (trim (s.take eqIndex), s.drop (eqIndex + sep.length))
  | none => .error (.MissingDelimiter lineNo)

/-- Split on a character, keeping empty pieces; models Rust
`str::split(c)`. -/
def splitOnChar (sep : Char) : Str → List Str
  | [] => [[]]
  | c :: rest =>
    if c = sep then [] :: splitOnChar sep rest
    else
      match splitOnChar sep rest with
      | piece :: more => (c :: piece) :: more
      | [] => [[c]]

/-- `parse_key` from `src/parser/core.rs`: trim, split on `.`, trim each
segment, reject empty keys and empty segments (the first empty segment is
itself the empty string carried by the error). -/
def parse_key (keyPart : Str) (lineNo : Nat) :
    Except ParseError (List Str) :=
  if trim keyPart = [] then .error (.EmptyKey lineNo)
  else
    let segments := (splitOnChar '.' (trim keyPart)).map trim
    if segments.any (· = []) then
      .error (.InvalidKeySegment [] lineNo)
    else .ok segments

/-- `strip_inline_comment` from `src/parser/core.rs` (identical in
`src/lib.rs`): truncate at the first `#` or `;`. -/
def strip_inline_comment (input : Str) : Str :=
  input.takeWhile (fun c => !(c = '#' || c = ';'))

/-- The whitespace-collapsing loop inside `parse_value` in
`src/parser/core.rs` (`normalized` accumulator and `last_was_space`
flag). -/
def normalizeVal (acc : Str) (lastWasSpace : Bool) : Str → Str
  | [] => acc
  | ch :: rest =>
    if isWs ch then
      if !acc.isEmpty && !lastWasSpace then
        normalizeVal (acc ++ [' ']) true rest
      else normalizeVal acc lastWasSpace rest
    else normalizeVal (acc ++ [ch]) false rest

/-- `parse_value` from `src/parser/core.rs`: strip inline comment, trim,
reject empty, collapse internal whitespace runs. -/
def parse_value (valuePart : Str) (lineNo : Nat) : Except ParseError Str :=
  let trimmed := trim (strip_inline_comment valuePart)
  if trimmed = [] then .error (.EmptyValue lineNo)
  else .ok (normalizeVal [] false trimmed)

/-- `parse_value` from `src/lib.rs` (the standalone variant): strip
inline comment and trim only. -/
def lib_parse_value (valuePart : Str) (lineNo : Nat) :
    Except ParseError Str :=
  let trimmed := trim (strip_inline_comment valuePart)
  if trimmed = [] then .error (.EmptyValue lineNo)
  else .ok trimmed

/-- Specification-side description of whitespace collapsing: every
maximal run of whitespace becomes one space.  Proved below to coincide
with the accumulator loop of `parse_value` on trimmed input. -/
def collapseRuns : Str → Str
  | [] => []
  | c :: rest =>
    if isWs c then ' ' :: collapseRuns (rest.dropWhile isWs)
    else c :: collapseRuns rest
termination_by s => s.length
decreasing_by
  · simp only [List.length_cons]
    exact Nat.lt_succ_of_le (List.dropWhile_suffix isWs).sublist.length_le
  · simp

/-- Dot-join of key segments; models `segments[..=idx].join(".")`. -/
def joinDots : List Str → Str
  | [] => []
  | [s] => s
  | s :: rest => s ++ '.' :: joinDots rest

/-- The traversal loop of `insert_value` from `src/parser/core.rs`.
`done` is the list of segments already traversed (for building the
`ConflictingTypes` key), `cur` the current map. -/
def insertGo (value : Str) (lineNo : Nat) :
    StructuredInput → List Str → List Str →
    Except ParseError StructuredInput
  | cur, _, [] => .ok cur
  | cur, done, [seg] =>
    match lookupA cur seg with
    | some (.Map _) =>
      .error (.ConflictingTypes (joinDots (done ++ [seg])) lineNo)
    | _ => .ok (insertA seg (.Scalar (value, lineNo)) cur)
  | cur, done, seg :: rest =>
    match lookupA cur seg with
    | some (.Scalar _) =>
      .error (.ConflictingTypes (joinDots (done ++ [seg])) lineNo)
    | some (.Map m) =>
      (insertGo value lineNo m (done ++ [seg]) rest).map
        (fun sub => insertA seg (.Map sub) cur)
    | none =>
      (insertGo value lineNo [] (done ++ [seg]) rest).map
        (fun sub => insertA seg (.Map sub) cur)

/-- `insert_value` from `src/parser/core.rs`. -/
def insert_value (root : StructuredInput) (segments : List Str)
    (value : Str) (lineNo : Nat) : Except ParseError StructuredInput :=
  insertGo value lineNo root [] segments

/-- Whether the first character of a (trimmed, non-empty) line marks a
full-line comment. -/
def isCommentStart : Str → Bool
  | [] => false
  | c :: _ => c = '#' || c = ';'

/-- Processing of one raw line inside `str_to_mir` from
`src/parser/core.rs`: skip blank and comment lines, otherwise tokenize,
resolve the key path, parse the value and insert. -/
def processLine (sep : Str) (root : StructuredInput) (lineNo : Nat)
    (rawLine : Str) : Except ParseError StructuredInput :=
  let trimmed := trim rawLine
  if trimmed = [] then .ok root
  else if isCommentStart trimmed then .ok root
  else do
    let kv ← extract_key_value sep trimmed lineNo
    let segments ← parse_key kv.1 lineNo
    let value ← parse_value kv.2 lineNo
    insert_value root segments value lineNo

/-- The enumerated-lines loop of `str_to_mir`; `idx` is the 0-based index
of the next line. -/
def strToMirGo (sep : Str) (root : StructuredInput) (idx : Nat) :
    List Str → Except ParseError StructuredInput
  | [] => .ok root
  | line :: rest => do
    let root' ← processLine sep root (idx + 1) line
    strToMirGo sep root' (idx + 1) rest

/-- `str_to_mir` from `src/parser/core.rs`, over the list of source lines
(Rust iterates `input.lines()`). -/
def str_to_mir (sep : Str) (lines : List Str) :
    Except ParseError StructuredInput :=
  strToMirGo sep [] 0 lines

/-- The separator of configuration text (`SingleValue::sep`). -/
def eqSep : Str := "=".data

/-- The separator of schema text (`SingleValueDiscriminants::sep`). -/
def arrowSep : Str := "->".data

/-- `impl From<strum::ParseError> for ParseError` from `src/error.rs`: the
placeholder payload (empty key, empty value, `Bool` kind, line 0). -/
def from_strum_parse_error : ParseError :=
  .InvalidValue [] [] .Bool 0

/-- `SingleValueDiscriminants::from_str`, derived by strum's `EnumString`:
exact match of the variant name.  A failure is already converted through
`from_strum_parse_error` (the `?` conversion in `parse_schema_value`). -/
def svd_from_str (s : Str) : Except ParseError SingleValueDiscriminants :=
  if s = "String".data then .ok .String
  else if s = "Bool".data then .ok .Bool
  else if s = "Integer".data then .ok .Integer
  else .error from_strum_parse_error

/-- The `try_collect` over comma-separated pieces inside
`parse_schema_value`: each piece is trimmed and parsed, stopping at the
first failure. -/
def parseKinds : List Str → Except ParseError (List SingleValueDiscriminants)
  | [] => .ok []
  | p :: rest => do
    let k ← svd_from_str (trim p)
    let ks ← parseKinds rest
    .ok (k :: ks)

/-- `parse_schema_value` from `src/parser/schema.rs`: a comma means a
`Collection` of the comma-separated (trimmed) kind names, otherwise a
`Single` of the whole (untrimmed) value. -/
def parse_schema_value (value : Str) : Except ParseError SchemaValue :=
  if value.contains ',' then
    (parseKinds (splitOnChar ',' value)).map
      (fun ks => .Scalar (.Collection ks))
  else (svd_from_str value).map (fun k => .Scalar (.Single k))

mutual

/-- `StructuredInput::into_schema` from `src/parser/schema.rs`: convert
every scalar leaf's raw string into a type descriptor, recursing into
maps. -/
def into_schema : StructuredInput → Except ParseError SchemaMapL
  | [] => .ok []
  | (key, mirValue) :: rest => do
    let sv ← schema_of_tree mirValue
    let restS ← into_schema rest
    .ok ((key, sv) :: restS)

/-- The per-node conversion inside `into_schema`'s loop. -/
def schema_of_tree : MirTree → Except ParseError SchemaValue
  | .Scalar (s, _) => parse_schema_value s
  | .Map m => (into_schema m).map .Map

end

/-- `parse_str` from `src/parser/schema.rs` (file reading excluded). -/
def schema_parse_str (lines : List Str) : Except ParseError SchemaMapL :=
  str_to_mir arrowSep lines >>= into_schema

/-- ASCII decimal digit test (`char::is_ascii_digit`). -/
def isAsciiDigit (c : Char) : Bool := 48 ≤ c.toNat && c.toNat ≤ 57

/-- Big-endian value of a list of ASCII decimal digit characters. -/
def decDigitsVal (ds : Str) : Nat :=
  ds.foldl (fun acc c => acc * 10 + (c.toNat - 48)) 0

/-- Models Rust `i32::from_str` digit accumulation after the optional
sign: a non-empty all-digit tail whose value fits the `i32` range.
Rust checks overflow at every step, but since the accumulated magnitude
only grows, that is equivalent to this final range check. -/
def parseI32Digits (neg : Bool) (ds : Str) : Option Int :=
  if ds = [] then none
  else if ds.all isAsciiDigit then
    let n : Nat := decDigitsVal ds
    if neg then
      if n ≤ 2147483648 then some (-(n : Int)) else none
    else
      if n ≤ 2147483647 then some (n : Int) else none
  else none

/-- Models Rust `i32::from_str` (`value.parse::<i32>()`): optional `+` or
`-` sign followed by decimal digits, range-checked. -/
def parse_i32 : Str → Option Int
  | [] => none
  | c :: rest =>
    if c = '+' then parseI32Digits false rest
    else if c = '-' then parseI32Digits true rest
    else parseI32Digits false (c :: rest)

/-- `parse_str_as_i32` from `src/parser/conf.rs`. -/
def parse_str_as_i32 (key value : Str) (line : Nat) :
    Except ParseError Int :=
  match parse_i32 value with
  | some n => .ok n
  | none => .error (.InvalidValue key value .Integer line)

/-- `SingleValueDiscriminants::into_payload` from `src/parser/conf.rs`:
`String` is verbatim, `Bool` compares the raw text with `"true"`,
`Integer` parses as `i32`. -/
def into_payload (k : SingleValueDiscriminants) (key value : Str)
    (line : Nat) : Except ParseError SingleValue :=
  match k with
  | .String => .ok (.String value)
  | .Bool => .ok (.Bool (decide (value = "true".data)))
  | .Integer => (parse_str_as_i32 key value line).map .Integer

/-- The `try_collect` over declared kinds inside `inject_payload`: the
same raw value is converted once per kind, stopping at the first
failure. -/
def collect_payloads (key value : Str) (line : Nat) :
    List SingleValueDiscriminants → Except ParseError (List SingleValue)
  | [] => .ok []
  | k :: rest => do
    let v ← into_payload k key value line
    let vs ← collect_payloads key value line rest
    .ok (v :: vs)

/-- `inject_payload` from `src/parser/conf.rs`.  The `let ... else
todo!()` on a `Map` mir value is modelled by `ParseError.Todo`. -/
def inject_payload (key : Str) (schemaValue : Value SingleValueDiscriminants)
    (mirValue : MirTree) : Except ParseError ConfValue :=
  match mirValue with
  | .Map _ => .error .Todo
  | .Scalar (value, line) =>
    match schemaValue with
    | .Single single =>
      (into_payload single key value line).map (fun v => .Scalar (.Single v))
    | .Collection items =>
      (collect_payloads key value line items).map
        (fun vs => .Scalar (.Collection vs))

mutual

/-- `TreeValue::get_lines_of_key` from `src/parser/core.rs`: depth-first,
key-ordered collection of every scalar leaf's line number. -/
def get_lines_of_key : MirTree → List Nat
  | .Scalar p => [p.2]
  | .Map m => get_lines_of_key_entries m

/-- The `flat_map` over a map's entries inside `get_lines_of_key`. -/
def get_lines_of_key_entries : List (Str × MirTree) → List Nat
  | [] => []
  | (_, v) :: rest => get_lines_of_key v ++ get_lines_of_key_entries rest

end

mutual

/-- `format_unknown_key_path` from `src/parser/conf.rs`: starting from
`root`, repeatedly descend into each map's first child, extending the
dotted path, until a scalar (or an empty map) is reached. -/
def format_unknown_key_path (path : Str) : MirTree → Str
  | .Scalar _ => path
  | .Map m => format_unknown_key_path_children path m

/-- One step of `format_unknown_key_path`'s loop over a map's entries. -/
def format_unknown_key_path_children (path : Str) :
    List (Str × MirTree) → Str
  | [] => path
  | (childKey, childValue) :: _ =>
    format_unknown_key_path
      (if path = [] then childKey else path ++ '.' :: childKey) childValue

end

/-- The dotted key computed at the top of `build_conf_map`'s loop:
`prefix.key`, or the bare key at the root. -/
def dottedKey (pre : Option Str) (key : Str) : Str :=
  match pre with
  | some base => base ++ '.' :: key
  | none => key

mutual

/-- `build_conf_map` from `src/parser/conf.rs`: walk the untyped tree in
lock-step with the schema.  A key missing from the schema level yields
`UnknownKey` — reported with the bare key in the top-level call when the
schema is non-empty, and otherwise with the first-child-descended dotted
path. -/
def build_conf_map : StructuredInput → SchemaMapL → Option Str →
    Except ParseError (List (Str × ConfValue))
  | [], _, _ => .ok []
  | (key, mirValue) :: rest, schema, pre =>
    let dotted := dottedKey pre key
    match lookupA schema key with
    | none =>
      if pre.isNone && !schema.isEmpty then
        .error (.UnknownKey key (get_lines_of_key mirValue))
      else
        .error (.UnknownKey (format_unknown_key_path dotted mirValue)
          (get_lines_of_key mirValue))
    | some schemaValue => do
      let confValue ← convert_mir_value dotted schemaValue mirValue
      let restConf ← build_conf_map rest schema pre
      .ok ((key, confValue) :: restConf)

/-- The per-entry `match schema_value` inside `build_conf_map`'s loop: a
schema leaf goes through `inject_payload`; a schema map requires a mir
map and recurses (the `let ... else todo!()` on a scalar is modelled by
`ParseError.Todo`). -/
def convert_mir_value (dotted : Str) :
    SchemaValue → MirTree → Except ParseError ConfValue
  | .Scalar schemaLeaf, mirValue => inject_payload dotted schemaLeaf mirValue
  | .Map schemaMap, .Map nestedInput =>
    (build_conf_map nestedInput schemaMap (some dotted)).map .Map
  | .Map _, .Scalar _ => .error .Todo

end

/-- `StructuredInput::into_conf` from `src/parser/conf.rs`
(`ConfMap::from` clones the map unchanged). -/
def into_conf (input : StructuredInput) (schema : SchemaMapL) :
    Except ParseError (List (Str × ConfValue)) :=
  build_conf_map input schema none

/-- `parse_str` from `src/parser/conf.rs`. -/
def conf_parse_str (lines : List Str) (schema : SchemaMapL) :
    Except ParseError (List (Str × ConfValue)) :=
  str_to_mir eqSep lines >>= fun mir => into_conf mir schema

/-- Whether a string is one of the recognized scalar type-kind names. -/
def kind_name_ok (s : Str) : Bool :=
  s == "String".data || s == "Bool".data || s == "Integer".data

/-- Whether a schema leaf's raw value is rejected by the type grammar of
`parse_schema_value`: some comma-separated piece (after trimming), or
the whole value when comma-free, is not a recognized kind name. -/
def leaf_value_bad (s : Str) : Bool :=
  if s.contains ',' then
    (splitOnChar ',' s).any (fun p => !kind_name_ok (trim p))
  else !kind_name_ok s

mutual

/-- Whether an untyped subtree holds some leaf with a bad type value. -/
def tree_has_bad_leaf : MirTree → Bool
  | .Scalar (s, _) => leaf_value_bad s
  | .Map m => entries_has_bad_leaf m

/-- `tree_has_bad_leaf` over a map's entries. -/
def entries_has_bad_leaf : List (Str × MirTree) → Bool
  | [] => false
  | (_, v) :: rest => tree_has_bad_leaf v || entries_has_bad_leaf rest

end

/-- The invariant established by `parse_key` for every stored key
segment: non-empty, free of `.`, and free of leading or trailing
whitespace (trimming is the identity on it). -/
def good_key (s : Str) : Bool :=
  !s.isEmpty && !decide ('.' ∈ s) && decide (trim s = s)

mutual

/-- Whether every key of every map in a tree satisfies `good_key`. -/
def tree_keys_good {T : Type} : TreeValue T → Bool
  | .Scalar _ => true
  | .Map m => entries_keys_good m

/-- `tree_keys_good` over a map's entries. -/
def entries_keys_good {T : Type} : List (Str × TreeValue T) → Bool
  | [] => true
  | (k, v) :: rest =>
    good_key k && tree_keys_good v && entries_keys_good rest

end

section TreeInduction

variable {T : Type} (P : TreeValue T → Prop)
  (Q : List (Str × TreeValue T) → Prop)
  (hscalar : ∀ t, P (.Scalar t))
  (hmap : ∀ m, Q m → P (.Map m))
  (hnil : Q [])
  (hcons : ∀ k v rest, P v → Q rest → Q ((k, v) :: rest))

mutual

/-- Paired induction principle over `TreeValue` and entry lists. -/
def treeInd : ∀ t, P t
  | .Scalar t => hscalar t
  | .Map m => hmap m (entriesInd m)

/-- Paired induction principle over entry lists. -/
def entriesInd : ∀ m, Q m
  | [] => hnil
  | (k, v) :: rest => hcons k v rest (treeInd v) (entriesInd rest)

end

end TreeInduction

/-- The decimal digit character of `d` (for `d < 10`). -/
def digitChar : Nat → Char
  | 0 => '0'
  | 1 => '1'
  | 2 => '2'
  | 3 => '3'
  | 4 => '4'
  | 5 => '5'
  | 6 => '6'
  | 7 => '7'
  | 8 => '8'
  | _ => '9'

/-- Big-endian decimal digits of a natural number, with explicit fuel
(any `fuel > n` suffices). -/
def natToDecCharsGo : Nat → Nat → Str
  | 0, _ => []
  | fuel + 1, n =>
    if n < 10 then [digitChar n]
    else natToDecCharsGo fuel (n / 10) ++ [digitChar (n % 10)]

/-- Big-endian decimal digits of a natural number. -/
def natToDecChars (n : Nat) : Str := natToDecCharsGo (n + 1) n

/-- Models Rust's `Display for i32` (`n.to_string()`): a `-` sign for
negative values followed by the decimal magnitude, no sign otherwise. -/
def format_i32 (n : Int) : Str :=
  if n < 0 then '-' :: natToDecChars n.natAbs else natToDecChars n.toNat

/-- Manual descent through nested maps along a non-empty segment path
(the specification of what a stored path means in a built tree). -/
def lookup_path {T : Type} : List (Str × TreeValue T) → List Str →
    Option (TreeValue T)
  | _, [] => none
  | m, [seg] => lookupA m seg
  | m, seg :: rest =>
    match lookupA m seg with
    | some (.Map m2) => lookup_path m2 rest
    | _ => none

/-! ## Helper lemmas -/

theorem lookupA_insertA_self {α : Type} (k : Str) (v : α)
    (m : List (Str × α)) : lookupA (insertA k v m) k = some v := by
  induction m with
  | nil => simp [insertA, lookupA]
  | cons h t ih =>
    obtain ⟨k0, v0⟩ := h
    by_cases he : k = k0
    · simp [insertA, he, lookupA]
    · by_cases hlt : strLt k k0
      · simp [insertA, he, hlt, lookupA]
      · simp [insertA, he, hlt, lookupA, ih]

theorem insertA_insertA {α : Type} (k : Str) (v1 v2 : α)
    (m : List (Str × α)) :
    insertA k v2 (insertA k v1 m) = insertA k v2 m := by
  induction m with
  | nil => simp [insertA]
  | cons h t ih =>
    obtain ⟨k0, v0⟩ := h
    by_cases he : k = k0
    · simp [insertA, he]
    · by_cases hlt : strLt k k0
      · simp [insertA, he, hlt]
      · simp [insertA, he, hlt, ih]

theorem insertGo_overwrite (v1 v2 : Str) (l1 l2 : Nat) :
    ∀ (segs : List Str), segs ≠ [] →
    ∀ (cur t1 : StructuredInput) (done : List Str),
      insertGo v1 l1 cur done segs = .ok t1 →
      insertGo v2 l2 t1 done segs = insertGo v2 l2 cur done segs ∧
      ∃ t2, insertGo v2 l2 cur done segs = .ok t2 ∧
        lookup_path t2 segs = some (.Scalar (v2, l2)) := by
  intro segs
  induction segs with
  | nil => intro h; exact absurd rfl h
  | cons seg rest ih =>
    intro _ cur t1 done h1
    match rest with
    | [] =>
      cases hl : lookupA cur seg with
      | none =>
        simp only [insertGo, hl, Except.ok.injEq] at h1
        subst h1
        refine ⟨?_, insertA seg (.Scalar (v2, l2)) cur, ?_, ?_⟩
        · simp [insertGo, hl, lookupA_insertA_self, insertA_insertA]
        · simp [insertGo, hl]
        · simp [lookup_path, lookupA_insertA_self]
      | some tv =>
        cases tv with
        | Scalar p =>
          simp only [insertGo, hl, Except.ok.injEq] at h1
          subst h1
          refine ⟨?_, insertA seg (.Scalar (v2, l2)) cur, ?_, ?_⟩
          · simp [insertGo, hl, lookupA_insertA_self, insertA_insertA]
          · simp [insertGo, hl]
          · simp [lookup_path, lookupA_insertA_self]
        | Map m => simp [insertGo, hl] at h1
    | s2 :: rest2 =>
      cases hl : lookupA cur seg with
      | none =>
        simp only [insertGo, hl] at h1
        cases hsub : insertGo v1 l1 [] (done ++ [seg]) (s2 :: rest2) with
        | error e => rw [hsub] at h1; simp [Except.map] at h1
        | ok sub =>
          rw [hsub] at h1
          simp only [Except.map, Except.ok.injEq] at h1
          obtain ⟨heq, ⟨sub2, hsub2, hlp⟩⟩ :=
            ih (by simp) [] sub (done ++ [seg]) hsub
          rw [← h1]
          refine ⟨?_, insertA seg (.Map sub2) cur, ?_, ?_⟩
          · simp [insertGo, hl, lookupA_insertA_self, heq, hsub2,
              Except.map, insertA_insertA]
          · simp [insertGo, hl, hsub2, Except.map]
          · simp [lookup_path, lookupA_insertA_self, hlp]
      | some tv =>
        cases tv with
        | Scalar p => simp [insertGo, hl] at h1
        | Map m =>
          simp only [insertGo, hl] at h1
          cases hsub : insertGo v1 l1 m (done ++ [seg]) (s2 :: rest2) with
          | error e => rw [hsub] at h1; simp [Except.map] at h1
          | ok sub =>
            rw [hsub] at h1
            simp only [Except.map, Except.ok.injEq] at h1
            obtain ⟨heq, ⟨sub2, hsub2, hlp⟩⟩ :=
              ih (by simp) m sub (done ++ [seg]) hsub
            rw [← h1]
            refine ⟨?_, insertA seg (.Map sub2) cur, ?_, ?_⟩
            · simp [insertGo, hl, lookupA_insertA_self, heq, hsub2,
                Except.map, insertA_insertA]
            · simp [insertGo, hl, hsub2, Except.map]
            · simp [lookup_path, lookupA_insertA_self, hlp]

theorem insertGo_conflict_map (v : Str) (l : Nat) :
    ∀ (segs : List Str) (cur : StructuredInput) (done : List Str)
      (mm : StructuredInput),
      lookup_path cur segs = some (.Map mm) →
      insertGo v l cur done segs =
        .error (.ConflictingTypes (joinDots (done ++ segs)) l) := by
  intro segs
  induction segs with
  | nil => intro cur done mm h; simp [lookup_path] at h
  | cons seg rest ih =>
    intro cur done mm h
    match rest with
    | [] =>
      simp only [lookup_path] at h
      simp [insertGo, h]
    | s2 :: rest2 =>
      simp only [lookup_path] at h
      cases hl : lookupA cur seg with
      | none => rw [hl] at h; simp at h
      | some tv =>
        cases tv with
        | Scalar p => rw [hl] at h; simp at h
        | Map m2 =>
          rw [hl] at h
          simp only at h
          have := ih m2 (done ++ [seg]) mm h
          simp only [insertGo, hl, this, Except.map]
          have harr : (done ++ [seg]) ++ (s2 :: rest2) =
              done ++ (seg :: s2 :: rest2) := by simp
          rw [harr]

theorem insertGo_conflict_scalar (v : Str) (l : Nat) :
    ∀ (pre : List Str) (cur : StructuredInput) (done : List Str)
      (p : MirPayload) (s : Str) (rest : List Str),
      lookup_path cur pre = some (.Scalar p) →
      insertGo v l cur done (pre ++ s :: rest) =
        .error (.ConflictingTypes (joinDots (done ++ pre)) l) := by
  intro pre
  induction pre with
  | nil => intro cur done p s rest h; simp [lookup_path] at h
  | cons seg0 pre2 ih =>
    intro cur done p s rest h
    match pre2 with
    | [] =>
      simp only [lookup_path] at h
      simp [insertGo, h]
    | s2 :: pre3 =>
      simp only [lookup_path] at h
      cases hl : lookupA cur seg0 with
      | none => rw [hl] at h; simp at h
      | some tv =>
        cases tv with
        | Scalar q => rw [hl] at h; simp at h
        | Map m2 =>
          rw [hl] at h
          simp only at h
          have hrec := ih m2 (done ++ [seg0]) p s rest h
          simp only [List.cons_append] at hrec
          have harr : (done ++ [seg0]) ++ (s2 :: pre3) =
              done ++ (seg0 :: s2 :: pre3) := by simp
          rw [harr] at hrec
          simp [insertGo, hl, hrec, Except.map]

theorem into_payload_error_eq (k : SingleValueDiscriminants)
    (key value : Str) (line : Nat) (e : ParseError)
    (h : into_payload k key value line = .error e) :
    e = .InvalidValue key value .Integer line ∧ k = .Integer := by
  cases k with
  | String => simp [into_payload] at h
  | Bool => simp [into_payload] at h
  | Integer =>
    simp only [into_payload, parse_str_as_i32] at h
    cases hp : parse_i32 value with
    | none => simp [hp, Except.map] at h; exact ⟨h.symm, rfl⟩
    | some n => simp [hp, Except.map] at h

theorem collect_payloads_ok (key value : Str) (line : Nat)
    (kinds : List SingleValueDiscriminants)
    (h : ∀ k ∈ kinds, ∃ v, into_payload k key value line = .ok v) :
    ∃ vs, collect_payloads key value line kinds = .ok vs ∧
      vs.length = kinds.length ∧
      ∀ (i : Nat) (hk : i < kinds.length) (hv : i < vs.length),
        into_payload (kinds.get ⟨i, hk⟩) key value line =
          .ok (vs.get ⟨i, hv⟩) := by
  induction kinds with
  | nil => exact ⟨[], rfl, rfl, fun i hk => absurd hk (by simp)⟩
  | cons k ks ih =>
    obtain ⟨v, hv⟩ := h k (by simp)
    obtain ⟨vs, hvs, hlen, hpt⟩ := ih (fun k' hk' => h k' (by simp [hk']))
    refine ⟨v :: vs, ?_, by simp [hlen], ?_⟩
    · simp [collect_payloads, hv, hvs, bind, Except.bind]
    · intro i hk hv'
      match i with
      | 0 => simpa using hv
      | i + 1 => simpa using hpt i (by simpa using hk) (by simpa using hv')

theorem collect_payloads_err (key value : Str) (line : Nat)
    (pre : List SingleValueDiscriminants) (k : SingleValueDiscriminants)
    (post : List SingleValueDiscriminants) (e : ParseError)
    (hpre : ∀ k' ∈ pre, ∃ v, into_payload k' key value line = .ok v)
    (hk : into_payload k key value line = .error e) :
    collect_payloads key value line (pre ++ k :: post) = .error e := by
  induction pre with
  | nil => simp [collect_payloads, hk, bind, Except.bind]
  | cons p ps ih =>
    obtain ⟨v, hv⟩ := hpre p (by simp)
    have := ih (fun k' hk' => hpre k' (by simp [hk']))
    simp [collect_payloads, hv, this, bind, Except.bind]

/-! ## C1: collection leaves replicate the raw value per declared kind -/

/-- C1: reconciling a scalar `(raw, line)` against a schema leaf
`Collection(kinds)` parses the identical raw string against each kind in
declared order: if every kind accepts `raw`, the result is exactly
`kinds.length` typed entries, the i-th obtained from the i-th kind on the
same raw string; if some kind rejects `raw` (earlier kinds accepting),
reconciliation fails with that kind's
`InvalidValue{key, value: raw, ty: kind, line}`. -/
theorem c1_collection_replicates_raw (key raw : Str) (line : Nat)
    (kinds : List SingleValueDiscriminants) :
    ((∀ k ∈ kinds, ∃ v, into_payload k key raw line = .ok v) →
      ∃ vs, inject_payload key (.Collection kinds) (.Scalar (raw, line)) =
          .ok (.Scalar (.Collection vs)) ∧
        vs.length = kinds.length ∧
        ∀ (i : Nat) (hk : i < kinds.length) (hv : i < vs.length),
          into_payload (kinds.get ⟨i, hk⟩) key raw line =
            .ok (vs.get ⟨i, hv⟩)) ∧
    (∀ (pre : List SingleValueDiscriminants)
      (k : SingleValueDiscriminants) (post : List SingleValueDiscriminants)
      (e : ParseError),
      kinds = pre ++ k :: post →
      (∀ k' ∈ pre, ∃ v, into_payload k' key raw line = .ok v) →
      into_payload k key raw line = .error e →
      inject_payload key (.Collection kinds) (.Scalar (raw, line)) =
          .error e ∧
        e = .InvalidValue key raw k line) := by
  constructor
  · intro h
    obtain ⟨vs, hvs, hlen, hpt⟩ := collect_payloads_ok key raw line kinds h
    exact ⟨vs, by simp [inject_payload, hvs, Except.map], hlen, hpt⟩
  · intro pre k post e hsplit hpre hk
    subst hsplit
    have hcol := collect_payloads_err key raw line pre k post e hpre hk
    obtain ⟨he1, he2⟩ := into_payload_error_eq k key raw line e hk
    subst he2
    exact ⟨by simp [inject_payload, hcol, Except.map], he1⟩

/-- Witness for C1 at the spec's example: schema `limits -> Integer,
Integer` with input `limits = 7` yields exactly two entries, both `7`. -/
theorem c1_collection_replicates_raw_witness :
    (∃ vs, inject_payload "limits".data (.Collection [.Integer, .Integer])
        (.Scalar ("7".data, 1)) = .ok (.Scalar (.Collection vs)) ∧
      vs.length = 2 ∧
      ∀ (i : Nat) (hk : i < ([SingleValueDiscriminants.Integer,
          .Integer] : List _).length) (hv : i < vs.length),
        into_payload (([SingleValueDiscriminants.Integer,
            .Integer] : List _).get ⟨i, hk⟩) "limits".data "7".data 1 =
          .ok (vs.get ⟨i, hv⟩)) ∧
    inject_payload "limits".data (.Collection [.Integer, .Integer])
        (.Scalar ("7".data, 1)) =
      .ok (.Scalar (.Collection [.Integer 7, .Integer 7])) := by
  constructor
  · refine (c1_collection_replicates_raw "limits".data "7".data 1
      [.Integer, .Integer]).1 ?_
    intro k hk
    fin_cases hk <;> exact ⟨.Integer 7, rfl⟩
  · rfl

/-! ## C7: integer round-trip over the i32 range -/

theorem digitChar_val (d : Nat) (h : d < 10) :
    isAsciiDigit (digitChar d) = true ∧ (digitChar d).toNat - 48 = d := by
  interval_cases d <;> exact ⟨by decide, by decide⟩

theorem decDigitsVal_append (xs : Str) (c : Char) :
    decDigitsVal (xs ++ [c]) = decDigitsVal xs * 10 + (c.toNat - 48) := by
  simp [decDigitsVal, List.foldl_append]

theorem natToDecCharsGo_spec (fuel : Nat) : ∀ n, n < fuel →
    natToDecCharsGo fuel n ≠ [] ∧
    (∀ c ∈ natToDecCharsGo fuel n, isAsciiDigit c = true) ∧
    decDigitsVal (natToDecCharsGo fuel n) = n := by
  induction fuel with
  | zero => intro n h; omega
  | succ fuel ih =>
    intro n h
    by_cases h10 : n < 10
    · obtain ⟨hd, hv⟩ := digitChar_val n h10
      refine ⟨by simp [natToDecCharsGo, h10], ?_, ?_⟩
      · simp [natToDecCharsGo, h10, hd]
      · simp [natToDecCharsGo, h10, decDigitsVal, hv]
    · have hlt : n / 10 < fuel := by omega
      obtain ⟨hne, hdig, hval⟩ := ih (n / 10) hlt
      obtain ⟨hd, hv⟩ := digitChar_val (n % 10) (by omega)
      refine ⟨by simp [natToDecCharsGo, h10], ?_, ?_⟩
      · intro c hc
        simp only [natToDecCharsGo, if_neg h10, List.mem_append,
          List.mem_singleton] at hc
        rcases hc with hc | hc
        · exact hdig c hc
        · rw [hc]; exact hd
      · simp only [natToDecCharsGo, if_neg h10, decDigitsVal_append, hval, hv]
        omega

theorem natToDecChars_spec (n : Nat) :
    natToDecChars n ≠ [] ∧
    (∀ c ∈ natToDecChars n, isAsciiDigit c = true) ∧
    decDigitsVal (natToDecChars n) = n :=
  natToDecCharsGo_spec (n + 1) n (by omega)

theorem parseI32Digits_natToDecChars (b : Bool) (m : Nat) :
    parseI32Digits b (natToDecChars m) =
      if b then (if m ≤ 2147483648 then some (-(m : Int)) else none)
      else (if m ≤ 2147483647 then some (m : Int) else none) := by
  obtain ⟨hne, hdig, hval⟩ := natToDecChars_spec m
  rw [parseI32Digits, if_neg hne, if_pos (List.all_eq_true.mpr hdig)]
  simp only [hval]

/-- C7: for every integer in the signed 32-bit range, formatting it as
decimal text (Rust `i32` `Display`) and converting the text back through
the `Integer` scalar type's parse rule (`parse_str_as_i32`) succeeds and
returns the original integer. -/
theorem c7_i32_roundtrip (key : Str) (line : Nat) (n : Int)
    (h1 : -2147483648 ≤ n) (h2 : n ≤ 2147483647) :
    parse_str_as_i32 key (format_i32 n) line = .ok n := by
  have hmain : parse_i32 (format_i32 n) = some n := by
    rcases lt_or_le n 0 with hn | hn
    · rw [format_i32, if_pos hn]
      rw [parse_i32, if_neg (by decide), if_pos rfl,
        parseI32Digits_natToDecChars]
      have hm : n.natAbs ≤ 2147483648 := by omega
      simp only [if_true, if_pos hm, Option.some.injEq]
      omega
    · rw [format_i32, if_neg (not_lt.mpr hn)]
      obtain ⟨hne, hdig, _⟩ := natToDecChars_spec n.toNat
      obtain ⟨c, rest, hds⟩ := List.exists_cons_of_ne_nil hne
      have hc : isAsciiDigit c = true := hdig c (by rw [hds]; simp)
      have hplus : ¬c = '+' := by
        intro hceq; rw [hceq] at hc; simp [isAsciiDigit] at hc
      have hminus : ¬c = '-' := by
        intro hceq; rw [hceq] at hc; simp [isAsciiDigit] at hc
      rw [hds, parse_i32, if_neg hplus, if_neg hminus, ← hds,
        parseI32Digits_natToDecChars]
      have hm : n.toNat ≤ 2147483647 := by omega
      simp only [if_false, if_pos hm, Option.some.injEq, Bool.false_eq_true]
      omega
  rw [parse_str_as_i32, hmain]

/-- Witness for C7 at both range extremes. -/
theorem c7_i32_roundtrip_witness :
    parse_str_as_i32 "p".data (format_i32 (-2147483648)) 1 =
        .ok (-2147483648) ∧
    parse_str_as_i32 "p".data (format_i32 2147483647) 1 = .ok 2147483647 :=
  ⟨c7_i32_roundtrip "p".data 1 (-2147483648) (by norm_num) (by norm_num),
   c7_i32_roundtrip "p".data 1 2147483647 (by norm_num) (by norm_num)⟩

/-! ## C2: unknown keys aggregate all contributing lines -/

/-- C2: when reconciliation meets a key with no schema entry at the
current level (all earlier entries of the level reconciling fine), it
fails with `UnknownKey` whose lines are the depth-first, key-ordered
collection of every scalar leaf's line in the unmatched subtree; the
reported key is the bare key in the top-level call with a non-empty
schema, and otherwise the dotted path extended by descending into each
unmatched map's first child. -/
theorem c2_unknown_key_aggregates_lines (schema : SchemaMapL)
    (pre0 : StructuredInput) (key : Str) (mirv : MirTree)
    (rest : StructuredInput) (prefx : Option Str)
    (m : List (Str × ConfValue))
    (hpre : build_conf_map pre0 schema prefx = .ok m)
    (hmiss : lookupA schema key = none) :
    build_conf_map (pre0 ++ (key, mirv) :: rest) schema prefx =
      .error (.UnknownKey
        (if prefx.isNone && !schema.isEmpty then key
         else format_unknown_key_path (dottedKey prefx key) mirv)
        (get_lines_of_key mirv)) := by
  induction pre0 generalizing m with
  | nil =>
    cases hc : prefx.isNone && !schema.isEmpty with
    | true => simp [build_conf_map, hmiss, hc]
    | false => simp [build_conf_map, hmiss, hc]
  | cons e0 pre0' ih =>
    obtain ⟨k0, v0⟩ := e0
    cases hl0 : lookupA schema k0 with
    | none =>
      simp only [build_conf_map, hl0] at hpre
      split at hpre <;> simp at hpre
    | some sv0 =>
      simp only [build_conf_map, hl0, bind, Except.bind] at hpre
      cases hcv : convert_mir_value (dottedKey prefx k0) sv0 v0 with
      | error e => rw [hcv] at hpre; simp at hpre
      | ok cv0 =>
        rw [hcv] at hpre
        cases hrest : build_conf_map pre0' schema prefx with
        | error e => rw [hrest] at hpre; simp at hpre
        | ok m' =>
          have hih := ih m' hrest
          simp only [List.cons_append, build_conf_map, hl0, bind,
            Except.bind, hcv, List.append_eq, hih]

/-- Witness for C2 at the spec's example: schema `{service.mode ->
String}` against `service.mode = x`, `unknown.a = 1`, `unknown.b = 2`
yields `UnknownKey{key: "unknown", lines: [2, 3]}`. -/
theorem c2_unknown_key_aggregates_lines_witness :
    str_to_mir eqSep ["service.mode = x".data, "unknown.a = 1".data,
        "unknown.b = 2".data] =
      .ok ([("service".data, .Map [("mode".data, .Scalar ("x".data, 1))])]
        ++ ("unknown".data, .Map [("a".data, .Scalar ("1".data, 2)),
            ("b".data, .Scalar ("2".data, 3))]) :: []) ∧
    build_conf_map
        ([("service".data, .Map [("mode".data, .Scalar ("x".data, 1))])]
          ++ ("unknown".data, .Map [("a".data, .Scalar ("1".data, 2)),
              ("b".data, .Scalar ("2".data, 3))]) :: [])
        [("service".data, .Map [("mode".data, .Scalar (.Single .String))])]
        none =
      .error (.UnknownKey "unknown".data [2, 3]) := by
  refine ⟨rfl, ?_⟩
  have h := c2_unknown_key_aggregates_lines
    [("service".data, .Map [("mode".data, .Scalar (.Single .String))])]
    [("service".data, .Map [("mode".data, .Scalar ("x".data, 1))])]
    "unknown".data
    (.Map [("a".data, .Scalar ("1".data, 2)),
      ("b".data, .Scalar ("2".data, 3))])
    [] none
    [("service".data, .Map [("mode".data,
      .Scalar (.Single (.String "x".data)))])]
    rfl rfl
  exact h

/-! ## C3: last assignment wins -/

/-- C3: re-assigning an already-assigned scalar key path is not an error:
the second insertion succeeds, stores exactly the value and line number
of the last assignment at that path, and the resulting tree is identical
to the one obtained had the earlier assignment never happened (no
trace). -/
theorem c3_last_assignment_wins (root t1 : StructuredInput)
    (segs : List Str) (v1 v2 : Str) (l1 l2 : Nat) (hne : segs ≠ [])
    (h1 : insert_value root segs v1 l1 = .ok t1) :
    insert_value t1 segs v2 l2 = insert_value root segs v2 l2 ∧
    ∃ t2, insert_value t1 segs v2 l2 = .ok t2 ∧
      lookup_path t2 segs = some (.Scalar (v2, l2)) := by
  obtain ⟨heq, t2, h2, hlp⟩ :=
    insertGo_overwrite v1 v2 l1 l2 segs hne root t1 [] h1
  exact ⟨heq, t2, heq.trans h2, hlp⟩

/-- Witness for C3: assigning `log.file` twice keeps only the second
value and line, and yields the same tree as a single assignment. -/
theorem c3_last_assignment_wins_witness :
    (insert_value [("log".data, .Map [("file".data,
        .Scalar ("a".data, 1))])] ["log".data, "file".data] "b".data 2 =
      insert_value [] ["log".data, "file".data] "b".data 2 ∧
    ∃ t2, insert_value [("log".data, .Map [("file".data,
        .Scalar ("a".data, 1))])] ["log".data, "file".data] "b".data 2 =
        .ok t2 ∧
      lookup_path t2 ["log".data, "file".data] =
        some (.Scalar ("b".data, 2))) ∧
    str_to_mir eqSep ["log.file = a".data, "log.file = b".data] =
      .ok [("log".data, .Map [("file".data, .Scalar ("b".data, 2))])] :=
  ⟨c3_last_assignment_wins [] [("log".data, .Map [("file".data,
    .Scalar ("a".data, 1))])] ["log".data, "file".data] "a".data "b".data
    1 2 (by decide) rfl, rfl⟩

/-! ## C4: scalar/map shape conflicts -/

/-- C4: inserting a scalar at a path whose final slot already holds a map
(`a.b` after `a.b.c`), or whose strict prefix already holds a scalar
(`a.b.c` after `a.b`), fails with `ConflictingTypes` carrying the dotted
path joined through the conflicting segment and the line of the second,
conflicting assignment. -/
theorem c4_conflicting_types (t : StructuredInput) (v : Str) (l : Nat) :
    (∀ (segs : List Str) (mm : StructuredInput),
      lookup_path t segs = some (.Map mm) →
      insert_value t segs v l =
        .error (.ConflictingTypes (joinDots segs) l)) ∧
    (∀ (pre : List Str) (p : MirPayload) (s : Str) (rest : List Str),
      lookup_path t pre = some (.Scalar p) →
      insert_value t (pre ++ s :: rest) v l =
        .error (.ConflictingTypes (joinDots pre) l)) := by
  constructor
  · intro segs mm h
    simpa using insertGo_conflict_map v l segs t [] mm h
  · intro pre p s rest h
    simpa using insertGo_conflict_scalar v l pre t [] p s rest h

/-- Witness for C4 in both directions, on the trees produced by first
assigning `a.b.c` (resp. `a.b`): the second assignment at `a.b` (resp.
`a.b.c`) on line 2 fails with `ConflictingTypes{key: "a.b", line: 2}`. -/
theorem c4_conflicting_types_witness :
    insert_value [("a".data, .Map [("b".data, .Map [("c".data,
        .Scalar ("x".data, 1))])])] ["a".data, "b".data] "y".data 2 =
      .error (.ConflictingTypes "a.b".data 2) ∧
    insert_value [("a".data, .Map [("b".data, .Scalar ("x".data, 1))])]
        ["a".data, "b".data, "c".data] "y".data 2 =
      .error (.ConflictingTypes "a.b".data 2) := by
  constructor
  · have h := (c4_conflicting_types [("a".data, .Map [("b".data, .Map
      [("c".data, .Scalar ("x".data, 1))])])] "y".data 2).1
      ["a".data, "b".data] [("c".data, .Scalar ("x".data, 1))] rfl
    simpa using h
  · have h := (c4_conflicting_types [("a".data, .Map [("b".data,
      .Scalar ("x".data, 1))])] "y".data 2).2
      ["a".data, "b".data] ("x".data, 1) "c".data [] rfl
    simpa using h

/-! ## C5: the value transformation applied by parsing -/

theorem head?_dropWhile_not_ws (s : Str) (c : Char)
    (h : (s.dropWhile isWs).head? = some c) : isWs c = false := by
  have hne : s.dropWhile isWs ≠ [] := by
    intro he; rw [he] at h; simp at h
  have hlem := List.head_dropWhile_not isWs s hne
  have hh : (s.dropWhile isWs).head hne = c := by
    have := List.head?_eq_head hne
    rw [this] at h
    exact Option.some.inj h
  rw [hh] at hlem
  exact hlem

theorem prefix_head? {l1 l2 : Str} (h : l1 <+: l2) (hne : l1 ≠ []) :
    l2.head? = l1.head? := by
  obtain ⟨t, rfl⟩ := h
  cases l1 with
  | nil => exact absurd rfl hne
  | cons a l => rfl

theorem head_trim_not_ws (s : Str) (c : Char)
    (h : (trim s).head? = some c) : isWs c = false := by
  have hne : trim s ≠ [] := by intro he; rw [he] at h; simp at h
  have hpre : trim s <+: trimLeft s :=
    List.rdropWhile_prefix isWs (trimLeft s)
  have h2 : (trimLeft s).head? = some c := by
    rw [prefix_head? hpre hne]; exact h
  exact head?_dropWhile_not_ws s c h2

theorem normalizeVal_acc (s : Str) : ∀ (acc : Str), acc ≠ [] →
    normalizeVal acc false s = acc ++ collapseRuns s ∧
    normalizeVal acc true s = acc ++ collapseRuns (s.dropWhile isWs) := by
  induction s with
  | nil => intro acc _; simp [normalizeVal, collapseRuns]
  | cons c rest ih =>
    intro acc hacc
    have hemp : acc.isEmpty = false := by
      cases acc with
      | nil => exact absurd rfl hacc
      | cons a l => rfl
    cases hw : isWs c with
    | true =>
      constructor
      · rw [normalizeVal]
        simp only [hw, hemp, Bool.not_false, Bool.not_true, Bool.and_true,
          Bool.and_false, if_true, if_false, Bool.true_and, Bool.false_and]
        rw [(ih (acc ++ [' ']) (by simp)).2]
        rw [collapseRuns]
        simp [hw]
      · rw [normalizeVal]
        simp only [hw, hemp, Bool.not_true, Bool.and_false, if_true,
          if_false, Bool.false_and]
        rw [(ih acc hacc).2]
        simp [List.dropWhile_cons, hw]
    | false =>
      constructor
      · rw [normalizeVal]
        simp only [hw, if_false, Bool.false_eq_true]
        rw [(ih (acc ++ [c]) (by simp)).1]
        rw [collapseRuns]
        simp [hw]
      · rw [normalizeVal]
        simp only [hw, if_false, Bool.false_eq_true]
        rw [(ih (acc ++ [c]) (by simp)).1]
        rw [List.dropWhile_cons]
        simp only [hw, if_false, Bool.false_eq_true]
        rw [collapseRuns]
        simp [hw]

theorem normalizeVal_eq_collapseRuns (s : Str)
    (hhead : ∀ c, s.head? = some c → isWs c = false) :
    normalizeVal [] false s = collapseRuns s := by
  cases s with
  | nil => simp [normalizeVal, collapseRuns]
  | cons c rest =>
    have hw : isWs c = false := hhead c rfl
    rw [normalizeVal]
    simp only [hw, if_false, Bool.false_eq_true, List.nil_append]
    rw [(normalizeVal_acc rest [c] (by simp)).1]
    rw [collapseRuns]
    simp [hw]

/-- Counterexample for C5: the line `k = b  c` (two internal spaces)
parses through the core pipeline, but the stored value `"b c"` differs
from the comment-stripped and trimmed value text `"b  c"` — the core
parser applies a further transformation. -/
theorem c5_counterexample :
    str_to_mir eqSep ["k = b  c".data] =
      .ok [("k".data, .Scalar ("b c".data, 1))] ∧
    lookupA ([("k".data, .Scalar ("b c".data, 1))] : StructuredInput)
        "k".data = some (.Scalar ("b c".data, 1)) ∧
    trim (strip_inline_comment " b  c".data) = "b  c".data ∧
    "b c".data ≠ "b  c".data :=
  ⟨rfl, rfl, rfl, by decide⟩

/-- C5 (amended): for every valid value text, the `lib.rs` parser stores
exactly the comment-stripped, trimmed value; the `parser/core.rs`
pipeline additionally collapses every internal whitespace run to one
space and applies no other transformation. -/
theorem c5_value_transformation (valuePart : Str) (lineNo : Nat)
    (h : trim (strip_inline_comment valuePart) ≠ []) :
    lib_parse_value valuePart lineNo =
      .ok (trim (strip_inline_comment valuePart)) ∧
    parse_value valuePart lineNo =
      .ok (collapseRuns (trim (strip_inline_comment valuePart))) := by
  refine ⟨by simp [lib_parse_value, h], ?_⟩
  rw [parse_value]
  simp only [if_neg h, Except.ok.injEq]
  exact normalizeVal_eq_collapseRuns _
    (head_trim_not_ws (strip_inline_comment valuePart))

/-- Witness for C5 (amended) on the repository's own test input
`" on \t value ; comment"`. -/
theorem c5_value_transformation_witness :
    (lib_parse_value " on \t value ; comment".data 5 =
        .ok (trim (strip_inline_comment " on \t value ; comment".data)) ∧
      parse_value " on \t value ; comment".data 5 =
        .ok (collapseRuns (trim (strip_inline_comment
          " on \t value ; comment".data)))) ∧
    parse_value " on \t value ; comment".data 5 = .ok "on value".data :=
  ⟨c5_value_transformation " on \t value ; comment".data 5 (by decide),
   rfl⟩

/-! ## C6: Bool conversion is total and compares with the literal text -/

/-- C6: converting any raw value against schema kind `Bool` never fails;
the produced flag is `true` exactly when the raw text equals `"true"`
character for character, and `false` otherwise — in particular for
`"True"` and `"1"`. -/
theorem c6_bool_conversion_total (key raw : Str) (line : Nat) :
    (∃ b : Bool, into_payload .Bool key raw line = .ok (.Bool b) ∧
      (b = true ↔ raw = "true".data)) ∧
    into_payload .Bool key "True".data line = .ok (.Bool false) ∧
    into_payload .Bool key "1".data line = .ok (.Bool false) :=
  ⟨⟨decide (raw = "true".data), rfl, by simp⟩, rfl, rfl⟩

/-! ## C8: unrecognized type-kind names give the placeholder error -/

theorem svd_from_str_error_eq (s : Str) (e : ParseError)
    (h : svd_from_str s = .error e) : e = from_strum_parse_error := by
  by_cases h1 : s = "String".data
  · rw [svd_from_str, if_pos h1] at h; exact absurd h (by simp)
  by_cases h2 : s = "Bool".data
  · rw [svd_from_str, if_neg h1, if_pos h2] at h; exact absurd h (by simp)
  by_cases h3 : s = "Integer".data
  · rw [svd_from_str, if_neg h1, if_neg h2, if_pos h3] at h
    exact absurd h (by simp)
  · rw [svd_from_str, if_neg h1, if_neg h2, if_neg h3] at h
    exact (Except.error.inj h).symm

theorem svd_from_str_bad (s : Str) (h : kind_name_ok s = false) :
    svd_from_str s = .error from_strum_parse_error := by
  simp only [kind_name_ok, Bool.or_eq_false_iff, beq_eq_false_iff_ne,
    ne_eq] at h
  obtain ⟨⟨h1, h2⟩, h3⟩ := h
  rw [svd_from_str, if_neg h1, if_neg h2, if_neg h3]

theorem svd_from_str_good (s : Str) (h : kind_name_ok s = true) :
    ∃ k, svd_from_str s = .ok k := by
  simp only [kind_name_ok, Bool.or_eq_true, beq_iff_eq] at h
  rcases h with (h | h) | h <;>
    · rw [svd_from_str]
      subst h
      exact ⟨_, rfl⟩

theorem parseKinds_error_eq : ∀ (ps : List Str) (e : ParseError),
    parseKinds ps = .error e → e = from_strum_parse_error := by
  intro ps
  induction ps with
  | nil => intro e h; simp [parseKinds] at h
  | cons p rest ih =>
    intro e h
    simp only [parseKinds, bind, Except.bind] at h
    cases hs : svd_from_str (trim p) with
    | error e0 =>
      rw [hs] at h
      exact (Except.error.inj h) ▸ svd_from_str_error_eq _ e0 hs
    | ok k =>
      rw [hs] at h
      cases hr : parseKinds rest with
      | error e1 => rw [hr] at h; exact (Except.error.inj h) ▸ ih e1 hr
      | ok ks => rw [hr] at h; simp at h

theorem parseKinds_bad : ∀ ps : List Str,
    ps.any (fun p => !kind_name_ok (trim p)) = true →
    parseKinds ps = .error from_strum_parse_error := by
  intro ps
  induction ps with
  | nil => intro h; simp at h
  | cons p rest ih =>
    intro h
    cases hk : kind_name_ok (trim p) with
    | false =>
      simp [parseKinds, svd_from_str_bad _ hk, bind, Except.bind]
    | true =>
      obtain ⟨k, hsk⟩ := svd_from_str_good _ hk
      have hrest : rest.any (fun p => !kind_name_ok (trim p)) = true := by
        simp only [List.any_cons, hk, Bool.not_true, Bool.false_or] at h
        exact h
      simp [parseKinds, hsk, ih hrest, bind, Except.bind]

theorem parse_schema_value_error_eq (s : Str) (e : ParseError)
    (h : parse_schema_value s = .error e) : e = from_strum_parse_error := by
  rw [parse_schema_value] at h
  by_cases hc : s.contains ',' = true
  · rw [if_pos hc] at h
    cases hp : parseKinds (splitOnChar ',' s) with
    | error e0 =>
      rw [hp] at h
      simp only [Except.map, Except.error.injEq] at h
      exact h ▸ parseKinds_error_eq _ e0 hp
    | ok ks => rw [hp] at h; simp [Except.map] at h
  · rw [if_neg hc] at h
    cases hs : svd_from_str s with
    | error e0 =>
      rw [hs] at h
      simp only [Except.map, Except.error.injEq] at h
      exact h ▸ svd_from_str_error_eq _ e0 hs
    | ok k => rw [hs] at h; simp [Except.map] at h

theorem parse_schema_value_bad (s : Str) (h : leaf_value_bad s = true) :
    parse_schema_value s = .error from_strum_parse_error := by
  rw [leaf_value_bad] at h
  rw [parse_schema_value]
  by_cases hc : s.contains ',' = true
  · rw [if_pos hc] at h
    rw [if_pos hc, parseKinds_bad _ h]
    rfl
  · rw [if_neg hc] at h
    rw [if_neg hc, svd_from_str_bad s (by simpa using h)]
    rfl

theorem schema_of_tree_error_eq :
    ∀ v : MirTree, ∀ e : ParseError,
      schema_of_tree v = .error e → e = from_strum_parse_error := by
  refine treeInd
    (fun v => ∀ e, schema_of_tree v = .error e → e = from_strum_parse_error)
    (fun m => ∀ e, into_schema m = .error e → e = from_strum_parse_error)
    ?_ ?_ ?_ ?_
  · intro t e h
    obtain ⟨s, l⟩ := t
    exact parse_schema_value_error_eq s e h
  · intro m hm e h
    rw [schema_of_tree] at h
    cases hi : into_schema m with
    | error e0 =>
      rw [hi] at h
      simp only [Except.map, Except.error.injEq] at h
      exact h ▸ hm e0 hi
    | ok s => rw [hi] at h; simp [Except.map] at h
  · intro e h; simp [into_schema] at h
  · intro k v rest hv hrest e h
    simp only [into_schema, bind, Except.bind] at h
    cases hs : schema_of_tree v with
    | error e0 => rw [hs] at h; exact (Except.error.inj h) ▸ hv e0 hs
    | ok sv =>
      rw [hs] at h
      cases hr : into_schema rest with
      | error e1 => rw [hr] at h; exact (Except.error.inj h) ▸ hrest e1 hr
      | ok ss => rw [hr] at h; simp at h

theorem into_schema_error_eq (m : StructuredInput) (e : ParseError)
    (h : into_schema m = .error e) : e = from_strum_parse_error := by
  induction m with
  | nil => simp [into_schema] at h
  | cons entry rest ih =>
    obtain ⟨k, v⟩ := entry
    simp only [into_schema, bind, Except.bind] at h
    cases hs : schema_of_tree v with
    | error e0 =>
      rw [hs] at h
      exact (Except.error.inj h) ▸ schema_of_tree_error_eq v e0 hs
    | ok sv =>
      rw [hs] at h
      cases hr : into_schema rest with
      | error e1 => rw [hr] at h; exact ih ((Except.error.inj h) ▸ hr)
      | ok ss => rw [hr] at h; simp at h

theorem schema_of_tree_bad :
    ∀ v : MirTree, tree_has_bad_leaf v = true →
      schema_of_tree v = .error from_strum_parse_error := by
  refine treeInd
    (fun v => tree_has_bad_leaf v = true →
      schema_of_tree v = .error from_strum_parse_error)
    (fun m => entries_has_bad_leaf m = true →
      into_schema m = .error from_strum_parse_error)
    ?_ ?_ ?_ ?_
  · intro t h
    obtain ⟨s, l⟩ := t
    rw [tree_has_bad_leaf] at h
    rw [schema_of_tree]
    exact parse_schema_value_bad s h
  · intro m hm h
    rw [tree_has_bad_leaf] at h
    rw [schema_of_tree, hm h]
    rfl
  · intro h; simp [entries_has_bad_leaf] at h
  · intro k v rest hv hrest h
    rw [entries_has_bad_leaf, Bool.or_eq_true] at h
    rcases h with h | h
    · simp [into_schema, hv h, bind, Except.bind]
    · cases hs : schema_of_tree v with
      | error e0 =>
        have he := schema_of_tree_error_eq v e0 hs
        subst he
        simp [into_schema, hs, bind, Except.bind]
      | ok sv => simp [into_schema, hs, hrest h, bind, Except.bind]

theorem into_schema_bad (m : StructuredInput)
    (hbad : entries_has_bad_leaf m = true) :
    into_schema m = .error from_strum_parse_error := by
  induction m with
  | nil => simp [entries_has_bad_leaf] at hbad
  | cons entry rest ih =>
    obtain ⟨k, v⟩ := entry
    rw [entries_has_bad_leaf, Bool.or_eq_true] at hbad
    rcases hbad with h | h
    · simp [into_schema, schema_of_tree_bad v h, bind, Except.bind]
    · cases hs : schema_of_tree v with
      | error e0 =>
        have he := schema_of_tree_error_eq v e0 hs
        subst he
        simp [into_schema, hs, bind, Except.bind]
      | ok sv => simp [into_schema, hs, ih h, bind, Except.bind]

/-- C8: whenever the untyped tree parsed from schema text contains a
leaf whose type value is rejected by the kind grammar (the whole value,
or some comma-separated piece after trimming, is none of `String`,
`Bool`, `Integer`), schema compilation fails with the placeholder
`InvalidValue` error: empty key, empty value, kind `Bool`, line 0. -/
theorem c8_bad_kind_placeholder_error (lines : List Str)
    (mir : StructuredInput)
    (hparse : str_to_mir arrowSep lines = .ok mir)
    (hbad : entries_has_bad_leaf mir = true) :
    schema_parse_str lines = .error (.InvalidValue [] [] .Bool 0) := by
  rw [schema_parse_str, hparse]
  simpa [bind, Except.bind, from_strum_parse_error] using
    into_schema_bad mir hbad

/-- Witness for C8: the schema line `a -> Float` compiles to the
placeholder `InvalidValue` error. -/
theorem c8_bad_kind_placeholder_error_witness :
    schema_parse_str ["a -> Float".data] =
      .error (.InvalidValue [] [] .Bool 0) :=
  c8_bad_kind_placeholder_error ["a -> Float".data]
    [("a".data, .Scalar ("Float".data, 1))] rfl rfl

/-! ## C9: the shape-mismatch branches of reconciliation -/

/-- Counterexample for C9: the schema text `a -> String` and the
configuration text `a.b = 1` each parse successfully, yet reconciling
them reaches the branch where the schema declares a leaf and the untyped
node is a map — the `todo!()` panic modelled by `ParseError.Todo`.  The
branches are therefore reachable. -/
theorem c9_counterexample :
    schema_parse_str ["a -> String".data] =
      .ok [("a".data, .Scalar (.Single .String))] ∧
    str_to_mir eqSep ["a.b = 1".data] =
      .ok [("a".data, .Map [("b".data, .Scalar ("1".data, 1))])] ∧
    build_conf_map [("a".data, .Map [("b".data, .Scalar ("1".data, 1))])]
        [("a".data, .Scalar (.Single .String))] none = .error .Todo :=
  ⟨rfl, rfl, rfl⟩

/-- C9 (amended): both shape-mismatch branches of reconciliation are
reachable from successfully parsed texts, and reaching them aborts in
the `todo!()` panic path: a schema leaf against an untyped map (schema
`a -> String`, config `a.b = 1`), and a schema map against an untyped
scalar (schema `a.b -> String`, config `a = x`). -/
theorem c9_todo_branches_reachable :
    (schema_parse_str ["a -> String".data] =
        .ok [("a".data, .Scalar (.Single .String))] ∧
      str_to_mir eqSep ["a.b = 1".data] =
        .ok [("a".data, .Map [("b".data, .Scalar ("1".data, 1))])] ∧
      into_conf [("a".data, .Map [("b".data, .Scalar ("1".data, 1))])]
        [("a".data, .Scalar (.Single .String))] = .error .Todo) ∧
    (schema_parse_str ["a.b -> String".data] =
        .ok [("a".data, .Map [("b".data, .Scalar (.Single .String))])] ∧
      str_to_mir eqSep ["a = x".data] =
        .ok [("a".data, .Scalar ("x".data, 1))] ∧
      into_conf [("a".data, .Scalar ("x".data, 1))]
        [("a".data, .Map [("b".data, .Scalar (.Single .String))])] =
          .error .Todo) :=
  ⟨⟨rfl, rfl, rfl⟩, ⟨rfl, rfl, rfl⟩⟩

/-! ## C10: every stored key is a clean segment -/

theorem trimLeft_trim (s : Str) : trimLeft (trim s) = trim s := by
  cases h : trim s with
  | nil => rfl
  | cons c t =>
    have hw : isWs c = false := head_trim_not_ws s c (by rw [h]; rfl)
    simp [trimLeft, List.dropWhile_cons, hw]

theorem trimRight_eq_rdropWhile (l : Str) :
    trimRight l = List.rdropWhile isWs l := rfl

theorem trimRight_trim (s : Str) : trimRight (trim s) = trim s := by
  rw [trim]
  simp only [trimRight_eq_rdropWhile]
  exact List.rdropWhile_idempotent isWs (trimLeft s)

theorem trim_trim (s : Str) : trim (trim s) = trim s := by
  rw [trim, trimLeft_trim, trimRight_trim]

theorem mem_of_mem_trim {c : Char} {s : Str} (h : c ∈ trim s) : c ∈ s := by
  have h1 : trim s <+: trimLeft s := List.rdropWhile_prefix isWs (trimLeft s)
  have h2 : trimLeft s <:+ s := List.dropWhile_suffix isWs
  exact h2.sublist.mem (h1.sublist.mem h)

theorem splitOnChar_ne_nil (sep : Char) : ∀ s : Str,
    splitOnChar sep s ≠ [] := by
  intro s
  induction s with
  | nil => simp [splitOnChar]
  | cons c rest ih =>
    rw [splitOnChar]
    by_cases hc : c = sep
    · simp [hc]
    · rw [if_neg hc]
      cases hs : splitOnChar sep rest with
      | nil => exact absurd hs ih
      | cons piece more => simp

theorem splitOnChar_pieces_not_mem (sep : Char) : ∀ (s piece : Str),
    piece ∈ splitOnChar sep s → sep ∉ piece := by
  intro s
  induction s with
  | nil =>
    intro piece h
    simp [splitOnChar] at h
    simp [h]
  | cons c rest ih =>
    intro piece h
    rw [splitOnChar] at h
    by_cases hc : c = sep
    · rw [if_pos hc] at h
      rcases List.mem_cons.mp h with h | h
      · simp [h]
      · exact ih piece h
    · rw [if_neg hc] at h
      cases hs : splitOnChar sep rest with
      | nil => exact absurd hs (splitOnChar_ne_nil sep rest)
      | cons piece0 more =>
        rw [hs] at h
        rcases List.mem_cons.mp h with h | h
        · subst h
          intro hmem
          rcases List.mem_cons.mp hmem with h | h
          · exact hc h.symm
          · exact ih piece0 (by rw [hs]; exact List.mem_cons_self _ _) h
        · exact ih piece (by rw [hs]; exact List.mem_cons_of_mem _ h)

theorem parse_key_good (kp : Str) (ln : Nat) (segs : List Str)
    (h : parse_key kp ln = .ok segs) :
    ∀ s ∈ segs, good_key s = true := by
  by_cases h1 : trim kp = []
  · rw [parse_key, if_pos h1] at h; exact absurd h (by simp)
  simp only [parse_key, if_neg h1] at h
  by_cases h2 :
      ((splitOnChar '.' (trim kp)).map trim).any (· = []) = true
  · rw [if_pos h2] at h; exact absurd h (by simp)
  · rw [if_neg h2] at h
    have hseg := Except.ok.inj h
    intro s hs
    rw [← hseg] at hs
    obtain ⟨piece, hpiece, rfl⟩ := List.mem_map.mp hs
    have hne : ¬trim piece = [] := by
      intro he
      exact h2 (List.any_eq_true.mpr
        ⟨trim piece, List.mem_map_of_mem _ hpiece, by simp [he]⟩)
    have hnd : '.' ∉ trim piece := fun hmem =>
      splitOnChar_pieces_not_mem '.' _ _ hpiece (mem_of_mem_trim hmem)
    have ht : trim (trim piece) = trim piece := trim_trim piece
    simp only [good_key, Bool.and_eq_true, Bool.not_eq_true',
      decide_eq_false_iff_not, decide_eq_true_eq]
    refine ⟨⟨?_, hnd⟩, ht⟩
    cases hp : trim piece with
    | nil => exact absurd hp hne
    | cons a l => rfl

theorem entries_good_lookupA {T : Type} (m : List (Str × TreeValue T))
    (k : Str) (t : TreeValue T) (hg : entries_keys_good m = true)
    (hl : lookupA m k = some t) : tree_keys_good t = true := by
  induction m with
  | nil => simp [lookupA] at hl
  | cons e rest ih =>
    obtain ⟨k0, v0⟩ := e
    rw [entries_keys_good] at hg
    simp only [Bool.and_eq_true] at hg
    rw [lookupA] at hl
    by_cases he : k = k0
    · rw [if_pos he] at hl
      exact (Option.some.inj hl) ▸ hg.1.2
    · rw [if_neg he] at hl
      exact ih hg.2 hl

theorem entries_good_insertA {T : Type} (k : Str) (v : TreeValue T)
    (m : List (Str × TreeValue T)) (hk : good_key k = true)
    (hv : tree_keys_good v = true) (hm : entries_keys_good m = true) :
    entries_keys_good (insertA k v m) = true := by
  induction m with
  | nil => simp [insertA, entries_keys_good, hk, hv]
  | cons e rest ih =>
    obtain ⟨k0, v0⟩ := e
    rw [entries_keys_good] at hm
    simp only [Bool.and_eq_true] at hm
    rw [insertA]
    by_cases he : k = k0
    · rw [if_pos he]
      simp [entries_keys_good, hk, hv, hm.2]
    · rw [if_neg he]
      by_cases hlt : strLt k k0 = true
      · rw [if_pos hlt]
        simp [entries_keys_good, hk, hv, hm.1.1, hm.1.2, hm.2]
      · rw [if_neg hlt]
        simp [entries_keys_good, hm.1.1, hm.1.2, ih hm.2]

theorem insertGo_good (v : Str) (l : Nat) :
    ∀ (segs : List Str) (cur : StructuredInput) (done : List Str)
      (t : StructuredInput),
      (∀ s ∈ segs, good_key s = true) → entries_keys_good cur = true →
      insertGo v l cur done segs = .ok t →
      entries_keys_good t = true := by
  intro segs
  induction segs with
  | nil =>
    intro cur done t _ hg h
    rw [insertGo] at h
    exact (Except.ok.inj h) ▸ hg
  | cons seg rest ih =>
    intro cur done t hsegs hg h
    have hseg : good_key seg = true := hsegs seg (by simp)
    match rest with
    | [] =>
      cases hl : lookupA cur seg with
      | none =>
        simp only [insertGo, hl, Except.ok.injEq] at h
        exact h ▸ entries_good_insertA seg _ cur hseg rfl hg
      | some tv =>
        cases tv with
        | Scalar p =>
          simp only [insertGo, hl, Except.ok.injEq] at h
          exact h ▸ entries_good_insertA seg _ cur hseg rfl hg
        | Map m => simp [insertGo, hl] at h
    | s2 :: rest2 =>
      have hrest : ∀ s ∈ s2 :: rest2, good_key s = true :=
        fun s hs => hsegs s (by simp [hs])
      cases hl : lookupA cur seg with
      | none =>
        simp only [insertGo, hl] at h
        cases hsub : insertGo v l [] (done ++ [seg]) (s2 :: rest2) with
        | error e => rw [hsub] at h; simp [Except.map] at h
        | ok sub =>
          rw [hsub] at h
          simp only [Except.map, Except.ok.injEq] at h
          have hsubg := ih [] (done ++ [seg]) sub hrest rfl hsub
          exact h ▸ entries_good_insertA seg _ cur hseg hsubg hg
      | some tv =>
        cases tv with
        | Scalar p => simp [insertGo, hl] at h
        | Map m =>
          simp only [insertGo, hl] at h
          cases hsub : insertGo v l m (done ++ [seg]) (s2 :: rest2) with
          | error e => rw [hsub] at h; simp [Except.map] at h
          | ok sub =>
            rw [hsub] at h
            simp only [Except.map, Except.ok.injEq] at h
            have hmg : entries_keys_good m = true := by
              have := entries_good_lookupA cur seg _ hg hl
              rwa [tree_keys_good] at this
            have hsubg := ih m (done ++ [seg]) sub hrest hmg hsub
            exact h ▸ entries_good_insertA seg _ cur hseg hsubg hg

theorem processLine_good (sep : Str) (root : StructuredInput) (ln : Nat)
    (line : Str) (root2 : StructuredInput)
    (hg : entries_keys_good root = true)
    (h : processLine sep root ln line = .ok root2) :
    entries_keys_good root2 = true := by
  rw [processLine] at h
  by_cases h0 : trim line = []
  · rw [if_pos h0] at h; exact (Except.ok.inj h) ▸ hg
  rw [if_neg h0] at h
  by_cases h1 : isCommentStart (trim line) = true
  · rw [if_pos h1] at h; exact (Except.ok.inj h) ▸ hg
  rw [if_neg h1] at h
  simp only [bind, Except.bind] at h
  cases hkv : extract_key_value sep (trim line) ln with
  | error e => rw [hkv] at h; simp at h
  | ok kv =>
    simp only [hkv] at h
    cases hsegs : parse_key kv.1 ln with
    | error e => rw [hsegs] at h; simp at h
    | ok segs =>
      simp only [hsegs] at h
      cases hval : parse_value kv.2 ln with
      | error e => rw [hval] at h; simp at h
      | ok value =>
        simp only [hval] at h
        rw [insert_value] at h
        exact insertGo_good value ln segs root [] root2
          (parse_key_good kv.1 ln segs hsegs) hg h

theorem strToMirGo_good (sep : Str) :
    ∀ (lines : List Str) (root : StructuredInput) (idx : Nat)
      (m : StructuredInput),
      entries_keys_good root = true →
      strToMirGo sep root idx lines = .ok m →
      entries_keys_good m = true := by
  intro lines
  induction lines with
  | nil =>
    intro root idx m hg h
    rw [strToMirGo] at h
    exact (Except.ok.inj h) ▸ hg
  | cons line rest ih =>
    intro root idx m hg h
    simp only [strToMirGo, bind, Except.bind] at h
    cases hp : processLine sep root (idx + 1) line with
    | error e => rw [hp] at h; simp at h
    | ok root2 =>
      rw [hp] at h
      exact ih root2 (idx + 1) m
        (processLine_good sep root (idx + 1) line root2 hg hp) h

theorem parse_schema_value_ok_shape (s : Str) (sv : SchemaValue)
    (h : parse_schema_value s = .ok sv) : ∃ x, sv = .Scalar x := by
  rw [parse_schema_value] at h
  split at h
  · cases hp : parseKinds (splitOnChar ',' s) with
    | error e => rw [hp] at h; simp [Except.map] at h
    | ok ks =>
      rw [hp] at h
      simp only [Except.map, Except.ok.injEq] at h
      exact ⟨_, h.symm⟩
  · cases hs : svd_from_str s with
    | error e => rw [hs] at h; simp [Except.map] at h
    | ok k =>
      rw [hs] at h
      simp only [Except.map, Except.ok.injEq] at h
      exact ⟨_, h.symm⟩

theorem schema_of_tree_good :
    ∀ v : MirTree, ∀ sv : SchemaValue,
      tree_keys_good v = true → schema_of_tree v = .ok sv →
      tree_keys_good sv = true := by
  refine treeInd
    (fun v => ∀ sv, tree_keys_good v = true → schema_of_tree v = .ok sv →
      tree_keys_good sv = true)
    (fun m => ∀ s, entries_keys_good m = true → into_schema m = .ok s →
      entries_keys_good s = true)
    ?_ ?_ ?_ ?_
  · intro t sv _ h
    obtain ⟨s, l⟩ := t
    rw [schema_of_tree] at h
    obtain ⟨x, rfl⟩ := parse_schema_value_ok_shape s sv h
    rfl
  · intro m hm sv hg h
    rw [schema_of_tree] at h
    cases hi : into_schema m with
    | error e => rw [hi] at h; simp [Except.map] at h
    | ok s =>
      rw [hi] at h
      simp only [Except.map, Except.ok.injEq] at h
      rw [tree_keys_good] at hg
      rw [← h, tree_keys_good]
      exact hm s hg hi
  · intro s _ h
    rw [into_schema] at h
    exact (Except.ok.inj h) ▸ rfl
  · intro k v rest hv hrest s hg h
    rw [entries_keys_good] at hg
    simp only [Bool.and_eq_true] at hg
    simp only [into_schema, bind, Except.bind] at h
    cases hs : schema_of_tree v with
    | error e => rw [hs] at h; simp at h
    | ok sv =>
      rw [hs] at h
      cases hr : into_schema rest with
      | error e => rw [hr] at h; simp at h
      | ok restS =>
        rw [hr] at h
        simp only [Except.ok.injEq] at h
        rw [← h, entries_keys_good]
        simp [hg.1.1, hv sv hg.1.2 hs, hrest restS hg.2 hr]

theorem into_schema_good (m : StructuredInput) (s : SchemaMapL)
    (hg : entries_keys_good m = true) (h : into_schema m = .ok s) :
    entries_keys_good s = true := by
  induction m generalizing s with
  | nil =>
    rw [into_schema] at h
    exact (Except.ok.inj h) ▸ rfl
  | cons e rest ih =>
    obtain ⟨k, v⟩ := e
    rw [entries_keys_good] at hg
    simp only [Bool.and_eq_true] at hg
    simp only [into_schema, bind, Except.bind] at h
    cases hs : schema_of_tree v with
    | error e0 => rw [hs] at h; simp at h
    | ok sv =>
      rw [hs] at h
      cases hr : into_schema rest with
      | error e0 => rw [hr] at h; simp at h
      | ok restS =>
        rw [hr] at h
        simp only [Except.ok.injEq] at h
        rw [← h, entries_keys_good]
        simp [hg.1.1, schema_of_tree_good v sv hg.1.2 hs, ih restS hg.2 hr]

theorem inject_payload_ok_shape (k : Str)
    (sv : Value SingleValueDiscriminants) (mv : MirTree) (cv : ConfValue)
    (h : inject_payload k sv mv = .ok cv) : ∃ x, cv = .Scalar x := by
  cases mv with
  | Map m => simp [inject_payload] at h
  | Scalar p =>
    obtain ⟨value, line⟩ := p
    cases sv with
    | Single single =>
      cases hi : into_payload single k value line with
      | error e => simp [inject_payload, hi, Except.map] at h
      | ok x =>
        simp only [inject_payload, hi, Except.map, Except.ok.injEq] at h
        exact ⟨_, h.symm⟩
    | Collection items =>
      cases hc : collect_payloads k value line items with
      | error e => simp [inject_payload, hc, Except.map] at h
      | ok xs =>
        simp only [inject_payload, hc, Except.map, Except.ok.injEq] at h
        exact ⟨_, h.symm⟩

theorem convert_mir_value_good :
    ∀ v : MirTree, ∀ (dk : Str) (sv : SchemaValue) (cv : ConfValue),
      tree_keys_good v = true → convert_mir_value dk sv v = .ok cv →
      tree_keys_good cv = true := by
  refine treeInd
    (fun v => ∀ dk sv cv, tree_keys_good v = true →
      convert_mir_value dk sv v = .ok cv → tree_keys_good cv = true)
    (fun input => ∀ schema pre out, entries_keys_good input = true →
      build_conf_map input schema pre = .ok out →
      entries_keys_good out = true)
    ?_ ?_ ?_ ?_
  · intro p dk sv cv _ h
    cases sv with
    | Scalar leaf =>
      rw [convert_mir_value] at h
      obtain ⟨x, rfl⟩ := inject_payload_ok_shape dk leaf _ cv h
      rfl
    | Map sm => simp [convert_mir_value, inject_payload] at h
  · intro m hm dk sv cv hg h
    cases sv with
    | Scalar leaf =>
      rw [convert_mir_value] at h
      obtain ⟨x, rfl⟩ := inject_payload_ok_shape dk leaf _ cv h
      rfl
    | Map sm =>
      rw [convert_mir_value] at h
      cases hb : build_conf_map m sm (some dk) with
      | error e => rw [hb] at h; simp [Except.map] at h
      | ok out =>
        rw [hb] at h
        simp only [Except.map, Except.ok.injEq] at h
        rw [tree_keys_good] at hg
        rw [← h, tree_keys_good]
        exact hm sm (some dk) out hg hb
  · intro schema pre out _ h
    rw [build_conf_map] at h
    exact (Except.ok.inj h) ▸ rfl
  · intro k v rest hv hrest schema pre out hg h
    rw [entries_keys_good] at hg
    simp only [Bool.and_eq_true] at hg
    cases hl : lookupA schema k with
    | none =>
      simp only [build_conf_map, hl] at h
      split at h <;> simp at h
    | some sv =>
      simp only [build_conf_map, hl, bind, Except.bind] at h
      cases hcv : convert_mir_value (dottedKey pre k) sv v with
      | error e => rw [hcv] at h; simp at h
      | ok cv =>
        rw [hcv] at h
        cases hr : build_conf_map rest schema pre with
        | error e => rw [hr] at h; simp at h
        | ok restC =>
          rw [hr] at h
          simp only [Except.ok.injEq] at h
          rw [← h, entries_keys_good]
          simp [hg.1.1, hv (dottedKey pre k) sv cv hg.1.2 hcv,
            hrest schema pre restC hg.2 hr]

theorem build_conf_map_good (input : StructuredInput) (schema : SchemaMapL)
    (pre : Option Str) (out : List (Str × ConfValue))
    (hg : entries_keys_good input = true)
    (h : build_conf_map input schema pre = .ok out) :
    entries_keys_good out = true := by
  induction input generalizing out with
  | nil =>
    rw [build_conf_map] at h
    exact (Except.ok.inj h) ▸ rfl
  | cons e rest ih =>
    obtain ⟨k, v⟩ := e
    rw [entries_keys_good] at hg
    simp only [Bool.and_eq_true] at hg
    cases hl : lookupA schema k with
    | none =>
      simp only [build_conf_map, hl] at h
      split at h <;> simp at h
    | some sv =>
      simp only [build_conf_map, hl, bind, Except.bind] at h
      cases hcv : convert_mir_value (dottedKey pre k) sv v with
      | error e0 => rw [hcv] at h; simp at h
      | ok cv =>
        rw [hcv] at h
        cases hr : build_conf_map rest schema pre with
        | error e0 => rw [hr] at h; simp at h
        | ok restC =>
          rw [hr] at h
          simp only [Except.ok.injEq] at h
          rw [← h, entries_keys_good]
          simp [hg.1.1, convert_mir_value_good v (dottedKey pre k) sv cv
            hg.1.2 hcv, ih restC hg.2 hr]

/-- C10: every key of every map produced by parsing satisfies the key
invariant — non-empty, no `.`, no surrounding whitespace: key-segment
parsing establishes it in the untyped tree, and schema compilation and
reconciliation both preserve it. -/
theorem c10_keys_invariant :
    (∀ (sep : Str) (lines : List Str) (m : StructuredInput),
      str_to_mir sep lines = .ok m → entries_keys_good m = true) ∧
    (∀ (mir : StructuredInput) (s : SchemaMapL),
      entries_keys_good mir = true → into_schema mir = .ok s →
      entries_keys_good s = true) ∧
    (∀ (input : StructuredInput) (schema : SchemaMapL) (pre : Option Str)
      (out : List (Str × ConfValue)),
      entries_keys_good input = true →
      build_conf_map input schema pre = .ok out →
      entries_keys_good out = true) :=
  ⟨fun sep lines m h => strToMirGo_good sep lines [] 0 m rfl h,
   into_schema_good,
   build_conf_map_good⟩

/-- Witness for C10 on a parsed configuration with untrimmed dotted
keys, its schema, and their reconciliation. -/
theorem c10_keys_invariant_witness :
    entries_keys_good [("a".data, .Map [("b".data,
      (.Scalar ("x".data, 1) : MirTree))])] = true ∧
    entries_keys_good [("a".data, .Map [("b".data,
      (.Scalar (.Single .String) : SchemaValue))])] = true ∧
    entries_keys_good [("a".data, .Map [("b".data,
      (.Scalar (.Single (.String "x".data)) : ConfValue))])] = true :=
  ⟨c10_keys_invariant.1 eqSep [" a . b = x".data]
      [("a".data, .Map [("b".data, .Scalar ("x".data, 1))])] rfl,
   c10_keys_invariant.2.1
      [("a".data, .Map [("b".data, .Scalar ("String".data, 1))])]
      [("a".data, .Map [("b".data, .Scalar (.Single .String))])] rfl rfl,
   c10_keys_invariant.2.2
      [("a".data, .Map [("b".data, .Scalar ("x".data, 1))])]
      [("a".data, .Map [("b".data, .Scalar (.Single .String))])] none
      [("a".data, .Map [("b".data, .Scalar (.Single (.String "x".data)))])]
      rfl rfl⟩

end DotConf
